import Mathlib

/-!
Formal model of the course-matching and scheduling logic of `app.py`
(IMNU Smart Timetable Viewer).

The program is a single Python file.  The parts modelled here are:

* `extract_start_time` (lines 39-51): a regex search for a time token
  followed by two `strptime` attempts;
* the course/cell matching patterns (lines 70-80): for an enrolled course
  `<subject>_<division>` the cell is tested against the regex
  `\b<subject>\(['’]?\s*<division>\)` when the division is non-empty and
  against `\b<subject>(?!\()` when it is empty (`re.escape` makes the
  subject a literal; the division is interpolated unescaped, so the model,
  which treats it as a literal, is faithful exactly when the division
  contains no regex metacharacters — true of all division codes in scope);
* `get_student_courses` (lines 28-36): the roster-directory scan;
* the schedule assembly (lines 95-107): left merge with the master table,
  `drop_duplicates` on (Date, Day, Session, Subject, Div), and the stable
  lexicographic sort by (Date, Start_Time) with missing start times last
  (pandas `sort_values` on several columns uses `np.lexsort`, which is a
  stable sort, with `na_position='last'`).

Strings are modelled as `List Char`/`String`; character classes (`\w`,
`\s`, `\d`) are modelled by their ASCII meaning, which agrees with Python
on every character appearing in the data in scope.  Dates are modelled as
naturals in chronological order.  Times of day are modelled as minutes
after midnight.  Missing values (`NaN` from the left merge, a failed time
extraction) are modelled as `Option.none`.
-/

namespace Timetable

/-- ASCII whitespace, the characters matched by the regex class `\s` and
stripped by Python's `str.strip` (restricted to the ASCII range). -/
def pyIsSpace (c : Char) : Bool :=
  c = ' ' || c = '\t' || c = '\n' || c = '\r' || c = '\x0b' || c = '\x0c'

/-- A word character in the sense of the regex class `\w` (ASCII range):
letters, digits and the underscore.  The regex anchor `\b` is a boundary
between a word character and a non-word character. -/
def isWordChar (c : Char) : Bool :=
  c.isAlphanum || c = '_'

/-- Whether the character at index `i` of `s` is a word character;
positions outside the string count as non-word, as in Python. -/
def wordCharAt (s : List Char) (i : Nat) : Bool :=
  match s.get? i with
  | some c => isWordChar c
  | none => false

/-- Semantics of the regex anchor `\b` at position `i` of `s`: the word
status changes between position `i - 1` and position `i`. -/
def boundaryAt (s : List Char) (i : Nat) : Bool :=
  match i with
  | 0 => wordCharAt s 0
  | j + 1 => wordCharAt s j != wordCharAt s (j + 1)

/-- Python `str.strip`: remove leading and trailing whitespace. -/
def pyStrip (s : List Char) : List Char :=
  ((s.dropWhile pyIsSpace).reverse.dropWhile pyIsSpace).reverse

/-- Take exactly `n` decimal digits from the front of `s`, returning them
together with the rest of `s`. -/
def takeDigits : Nat → List Char → Option (List Char × List Char)
  | 0, s => some ([], s)
  | _ + 1, [] => none
  | n + 1, c :: s =>
    if c.isDigit then
      match takeDigits n s with
      | some (d, r) => some (c :: d, r)
      | none => none
    else none

/-- Consume one separator character from the regex class `[:.]`. -/
def takeSep : List Char → Option (List Char × List Char)
  | [] => none
  | c :: r => if c = ':' || c = '.' then some ([c], r) else none

/-- First letter of a case-insensitive meridiem marker (`[AP]` under
`re.IGNORECASE`). -/
def isAorP (c : Char) : Bool :=
  c = 'A' || c = 'a' || c = 'P' || c = 'p'

/-- Second letter of a case-insensitive meridiem marker. -/
def isMchar (c : Char) : Bool :=
  c = 'M' || c = 'm'

/-- Consume a meridiem marker `[AP]M` (case-insensitive). -/
def takeMeridiem : List Char → Option (List Char × List Char)
  | a :: m :: r => if isAorP a && isMchar m then some ([a, m], r) else none
  | _ => none

/-- All ways to split a run of leading whitespace off `s`, longest first:
the order in which a backtracking engine tries the greedy `\s*`. -/
def wsSplits (s : List Char) : List (List Char × List Char) :=
  let run := (s.takeWhile pyIsSpace).length
  ((List.range (run + 1)).reverse).map (fun k => (s.take k, s.drop k))

/-- After the digit part of the time token: try `\s*[AP]M`, whitespace
greedy, and return the full token on success. -/
def afterDigits (tok : List Char) (s : List Char) : Option (List Char) :=
  (wsSplits s).findSome? (fun p =>
    match takeMeridiem p.2 with
    | some (mer, _) => some (tok ++ p.1 ++ mer)
    | none => none)

/-- Attempt to match the regex `(\d{1,2}[:.]?\d{0,2}\s*[AP]M)` (with
`re.IGNORECASE`) at the start of `s`, exploring alternatives in the order
of Python's backtracking engine (greedy quantifiers, leftmost preference),
and return the matched text. -/
def matchFrom (s : List Char) : Option (List Char) :=
  [2, 1].findSome? (fun d1n =>
    match takeDigits d1n s with
    | none => none
    | some (d1, s1) =>
      [true, false].findSome? (fun withSep =>
        match (if withSep then takeSep s1 else some ([], s1)) with
        | none => none
        | some (sp, s2) =>
          [2, 1, 0].findSome? (fun d2n =>
            match takeDigits d2n s2 with
            | none => none
            | some (d2, s3) => afterDigits (d1 ++ sp ++ d2) s3)))

/-- Semantics of `re.search` for the time-token regex: try every start
position from the left and return the first (leftmost) match. -/
def searchTok : List Char → Option (List Char)
  | [] => none
  | c :: rest =>
    match matchFrom (c :: rest) with
    | some t => some t
    | none => searchTok rest

/-- Hour alternatives of `strptime`'s `%I` directive, in the alternation
order of CPython's `_strptime` regex: `1[0-2] | 0[1-9] | [1-9]`. -/
def hourCands (s : List Char) : List (Nat × List Char) :=
  (match s with
   | '1' :: c :: r =>
     if c = '0' || c = '1' || c = '2' then [(10 + (c.toNat - 48), r)] else []
   | _ => []) ++
  (match s with
   | '0' :: c :: r => if c.isDigit && c ≠ '0' then [(c.toNat - 48, r)] else []
   | _ => []) ++
  (match s with
   | c :: r => if c.isDigit && c ≠ '0' then [(c.toNat - 48, r)] else []
   | _ => [])

/-- Minute alternatives of `strptime`'s `%M` directive, alternation order
`[0-5]\d | \d`. -/
def minCands (s : List Char) : List (Nat × List Char) :=
  (match s with
   | a :: b :: r =>
     if a.isDigit && a.toNat ≤ 53 && b.isDigit then
       [((a.toNat - 48) * 10 + (b.toNat - 48), r)]
     else []
   | _ => []) ++
  (match s with
   | a :: r => if a.isDigit then [(a.toNat - 48, r)] else []
   | _ => [])

/-- Meridiem alternatives of `strptime`'s `%p` directive (`AM|PM`,
case-insensitive); `true` means PM. -/
def pCands (s : List Char) : List (Bool × List Char) :=
  match s with
  | a :: m :: r =>
    (if (a = 'A' || a = 'a') && isMchar m then [(false, r)] else []) ++
    (if (a = 'P' || a = 'p') && isMchar m then [(true, r)] else [])
  | _ => []

/-- CPython `datetime.strptime(s, "%I:%M%p")`: the whole string must be
consumed (`strptime` rejects unconverted trailing data, and data
whitespace never matches when the format has none). -/
def strptimeIMp (s : List Char) : Option (Nat × Nat × Bool) :=
  (hourCands s).findSome? (fun hc =>
    match hc.2 with
    | ':' :: r2 =>
      (minCands r2).findSome? (fun mc =>
        (pCands mc.2).findSome? (fun pc =>
          if pc.2 = [] then some (hc.1, mc.1, pc.1) else none))
    | _ => none)

/-- CPython `datetime.strptime(s, "%I%p")`, full consumption required. -/
def strptimeIp (s : List Char) : Option (Nat × Bool) :=
  (hourCands s).findSome? (fun hc =>
    (pCands hc.2).findSome? (fun pc =>
      if pc.2 = [] then some (hc.1, pc.1) else none))

/-- Convert a parsed 12-hour clock reading to minutes after midnight,
following CPython's `_strptime` conversion (12 AM is hour 0, 12 PM stays
12, other PM hours gain 12). -/
def toMinutes (h m : Nat) (pm : Bool) : Nat :=
  (if pm then (if h = 12 then 12 else h + 12) else (if h = 12 then 0 else h)) * 60 + m

/-- Model of `extract_start_time` (app.py lines 39-51): normalize the
session label (replace newlines by spaces, strip), search for a time token
with the regex `(\d{1,2}[:.]?\d{0,2}\s*[AP]M)`, replace `.` by `:` and
uppercase the token, then try `strptime` with `"%I:%M%p"` and, failing
that, with `"%I%p"`; on any failure return `none`.  The result is the
time of day in minutes after midnight. -/
def extract_start_time (session : String) : Option Nat :=
  let s := pyStrip ((session.toList).map (fun c => if c = '\n' then ' ' else c))
  match searchTok s with
  | none => none
  | some tok =>
    let t := tok.map (fun c => (if c = '.' then ':' else c).toUpper)
    match strptimeIMp t with
    | some (h, m, pm) => some (toMinutes h m pm)
    | none =>
      match strptimeIp t with
      | some (h, pm) => some (toMinutes h 0 pm)
      | none => none

/-- Semantics of `re.search(rf"\b{re.escape(subject_code)}(?!\()", cell)`
(app.py line 78) at start position `i`: a word boundary, the subject code
as a literal, and the negative lookahead refusing an immediately
following opening parenthesis. -/
def noDivMatchAt (subj s : List Char) (i : Nat) : Bool :=
  boundaryAt s i && subj.isPrefixOf (s.drop i) && !(s.get? (i + subj.length) == some '(')

/-- Truth value of `re.search` for the empty-division pattern: some start
position in the cell matches. -/
def matchesNoDiv (subj cell : String) : Bool :=
  (List.range (cell.toList.length + 1)).any (fun i => noDivMatchAt subj.toList cell.toList i)

/-- Tail of the division pattern after the opening parenthesis and the
optional apostrophe: `\s*{div_code}\)`, with the greedy star explored as
an alternative at every whitespace position. -/
def wsDivClose (div : List Char) : List Char → Bool
  | [] => false
  | c :: rest => (div ++ [')']).isPrefixOf (c :: rest) || (pyIsSpace c && wsDivClose div rest)

/-- Optional straight or typographic apostrophe `['’]?` followed by
`\s*{div_code}\)`. -/
def apoThen (div : List Char) (s : List Char) : Bool :=
  (match s with
   | c :: rest => (c = '\'' || c = '’') && wsDivClose div rest
   | [] => false) || wsDivClose div s

/-- Semantics of `re.search(rf"\b{re.escape(subject_code)}\(['’]?\s*{div_code}\)", cell)`
(app.py line 76) at start position `i`. -/
def divMatchAt (subj div s : List Char) (i : Nat) : Bool :=
  boundaryAt s i && (subj ++ ['(']).isPrefixOf (s.drop i) &&
    apoThen div (s.drop (i + subj.length + 1))

/-- Truth value of `re.search` for the division pattern. -/
def matchesDiv (subj div cell : String) : Bool :=
  (List.range (cell.toList.length + 1)).any
    (fun i => divMatchAt subj.toList div.toList cell.toList i)

/-- Subject code of a course stem, `course.split("_")[0]` (app.py
line 71): the characters before the first underscore. -/
def subjectOf (course : String) : String :=
  String.mk (course.toList.takeWhile (fun c => c != '_'))

/-- Division code of a course stem, `course.split("_")[1] if "_" in
course else ""` (app.py line 72): the characters between the first and
the second underscore, or the empty string when there is no underscore. -/
def divOf (course : String) : String :=
  if course.toList.contains '_' then
    String.mk (((course.toList.dropWhile (fun c => c != '_')).drop 1).takeWhile (fun c => c != '_'))
  else ""

/-- The matching rule of app.py lines 74-80 for a course identifier
(subject code, division code) against a timetable cell: the division
pattern when the division code is non-empty, the bare pattern otherwise. -/
def cellMatchesId (subj div cell : String) : Bool :=
  if div = "" then matchesNoDiv subj cell else matchesDiv subj div cell

/-- Matching a raw course stem against a cell, combining the derivation
of app.py lines 70-72 with the pattern dispatch. -/
def cellMatchesCourse (course cell : String) : Bool :=
  cellMatchesId (subjectOf course) (divOf course) cell

/-- Left token-boundary condition, spec-side: nothing before the match,
or a non-word character right before it. -/
def TokenBoundaryLeft (pre : List Char) : Prop :=
  pre = [] ∨ ∃ pre' c, pre = pre' ++ [c] ∧ isWordChar c = false

/-- Spec-side statement of claim C1 as written: the cell contains the
subject code on a token boundary (both sides) and not immediately
followed by an opening parenthesis. -/
def specNoDivTokenMatch (subj cell : String) : Prop :=
  ∃ pre suf, cell.toList = pre ++ subj.toList ++ suf ∧ TokenBoundaryLeft pre ∧
    (suf = [] ∨ ∃ c suf', suf = c :: suf' ∧ isWordChar c = false ∧ c ≠ '(')

/-- Spec-side statement of claim C1 amended to what the code enforces:
only the left token boundary is required, plus the not-followed-by-an-
opening-parenthesis condition; no right token boundary. -/
def specNoDivMatchAmended (subj cell : String) : Prop :=
  ∃ pre suf, cell.toList = pre ++ subj.toList ++ suf ∧ TokenBoundaryLeft pre ∧
    (suf = [] ∨ ∃ c suf', suf = c :: suf' ∧ c ≠ '(')

/-- Spec-side statement of claim C3: the cell contains the subject code
on a (left) token boundary, immediately followed by an opening
parenthesis, an optional straight or typographic apostrophe, optional
whitespace, the division code, and a closing parenthesis. -/
def specDivMatch (subj div cell : String) : Prop :=
  ∃ pre apo ws suf,
    cell.toList = pre ++ subj.toList ++ '(' :: (apo ++ ws ++ div.toList ++ ')' :: suf) ∧
    TokenBoundaryLeft pre ∧ (apo = [] ∨ apo = ['\''] ∨ apo = ['’']) ∧
    (∀ c ∈ ws, pyIsSpace c = true)

/-- Whether the first character of `s` is a word character (and `s` is
non-empty); hypothesis under which the `\b` anchor before a literal is
exactly the left token-boundary condition. -/
def headIsWordChar (s : String) : Bool :=
  match s.toList with
  | c :: _ => isWordChar c
  | [] => false

/-- A roster file as `get_student_courses` observes it: its name in the
directory listing, whether the loaded sheet has a "Roll No." column, and
that column's values as strings (`astype(str)`). -/
structure RosterFile where
  name : String
  hasRollCol : Bool
  rolls : List String
deriving DecidableEq

/-- Python `file.replace(".xlsx", "")`: delete every non-overlapping
occurrence of `".xlsx"`, scanning left to right. -/
def stripXlsx : List Char → List Char
  | '.' :: 'x' :: 'l' :: 's' :: 'x' :: rest => stripXlsx rest
  | c :: rest => c :: stripXlsx rest
  | [] => []

/-- Model of `get_student_courses` (app.py lines 28-36): walk the roster
directory in listing order; for each file whose name ends in `".xlsx"`,
if the sheet has a "Roll No." column containing the requested roll
number, contribute the file name with `".xlsx"` occurrences removed. -/
def get_student_courses (dir : List RosterFile) (roll : String) : List String :=
  dir.filterMap (fun f =>
    if (".xlsx".toList).isSuffixOf f.name.toList then
      (if f.hasRollCol && f.rolls.contains roll then
        some (String.mk (stripXlsx f.name.toList))
      else none)
    else none)

/-- A raw match row appended at app.py lines 81-88: timetable date (as a
chronological ordinal), day name, cleaned session label, subject code,
division code, and the cell text. -/
structure RawMatch where
  date : Nat
  day : String
  session : String
  subject : String
  div : String
  cellInfo : String
deriving DecidableEq

/-- A row of the master course table: abbreviation, faculty, venue. -/
structure MasterRow where
  abbre : String
  faculty : String
  venue : String
deriving DecidableEq

/-- A row of the merged schedule table, with faculty and venue absent
(`NaN`) when the left merge found no master row. -/
structure Entry where
  date : Nat
  day : String
  session : String
  subject : String
  div : String
  faculty : Option String
  venue : Option String
deriving DecidableEq

/-- Build a merged row from a raw match and an optional master row. -/
def mkEntry (r : RawMatch) (m : Option MasterRow) : Entry :=
  { date := r.date, day := r.day, session := r.session, subject := r.subject,
    div := r.div, faculty := m.map MasterRow.faculty, venue := m.map MasterRow.venue }

/-- Rows a single raw match contributes to the left merge of app.py
lines 95-100: one row per master row whose abbreviation equals the
subject, in master-table order, or a single row with absent faculty and
venue when there is none. -/
def mergeRow (master : List MasterRow) (r : RawMatch) : List Entry :=
  match master.filter (fun row => row.abbre == r.subject) with
  | [] => [mkEntry r none]
  | ms => ms.map (fun mrow => mkEntry r (some mrow))

/-- The pandas left merge `result_df.merge(master_df, left_on="Subject",
right_on="Abbre.", how="left")`: left rows in order, each expanded to its
matching master rows. -/
def mergeLeft (m : List RawMatch) (master : List MasterRow) : List Entry :=
  m.flatMap (mergeRow master)

/-- The column subset of `drop_duplicates` (app.py line 102). -/
abbrev DKey := Nat × String × String × String × String

/-- Deduplication key of an entry: (Date, Day, Session, Subject, Div). -/
def dedupKey (e : Entry) : DKey :=
  (e.date, e.day, e.session, e.subject, e.div)

/-- Worker for `drop_duplicates(keep='first')`: keep an entry exactly
when its key has not been seen before. -/
def dedupGo (seen : List DKey) : List Entry → List Entry
  | [] => []
  | e :: rest =>
    if dedupKey e ∈ seen then dedupGo seen rest
    else e :: dedupGo (dedupKey e :: seen) rest

/-- Model of `final_df.drop_duplicates(subset=["Date", "Day", "Session",
"Subject", "Div"])` (app.py line 102): keep the first occurrence of each
key, in order. -/
def dropDuplicates (l : List Entry) : List Entry :=
  dedupGo [] l

/-- The `Start_Time` column (app.py line 106): the extracted start time
of the entry's session label. -/
def startTimeOf (e : Entry) : Option Nat :=
  extract_start_time e.session

/-- Ascending order on optional start times with missing values last
(`na_position='last'`). -/
def timeLe : Option Nat → Option Nat → Bool
  | none, none => true
  | none, some _ => false
  | some _, none => true
  | some a, some b => decide (a ≤ b)

/-- The sort key order of `final_df.sort_values(by=["Date",
"Start_Time"])` (app.py line 107): date ascending, then extracted start
time ascending with missing times last. -/
def entryR (a b : Entry) : Prop :=
  a.date < b.date ∨ (a.date = b.date ∧ timeLe (startTimeOf a) (startTimeOf b) = true)

instance : DecidableRel entryR := fun a b =>
  inferInstanceAs (Decidable (a.date < b.date ∨
    (a.date = b.date ∧ timeLe (startTimeOf a) (startTimeOf b) = true)))

/-- The sort of app.py line 107.  pandas sorts several columns with
`np.lexsort`, a stable sort; any stable sort by the same total preorder
produces the same list, so the model uses insertion sort, which is
stable. -/
def sortSchedule (l : List Entry) : List Entry :=
  l.insertionSort entryR

/-- The schedule assembler (app.py lines 95-107): left merge with the
master table, drop duplicate (Date, Day, Session, Subject, Div) keys
keeping first occurrences, then stable sort by (Date, Start_Time). -/
def assemble (m : List RawMatch) (master : List MasterRow) : List Entry :=
  sortSchedule (dropDuplicates (mergeLeft m master))

/-- The pair a schedule entry is sorted by. -/
def sortKey (e : Entry) : Nat × Option Nat :=
  (e.date, startTimeOf e)

/-- Whether `s` is non-empty and does not begin with an underscore: the
condition under which `subjectOf` is non-empty. -/
def headNotUnderscore (s : String) : Bool :=
  match s.toList with
  | c :: _ => c != '_'
  | [] => false

/-- Boolean test that an entry has a given sort key. -/
def keyEq (k : Nat × Option Nat) (e : Entry) : Bool :=
  decide (sortKey e = k)

instance : IsTotal Entry entryR :=
  ⟨fun a b => by
    rcases Nat.lt_trichotomy a.date b.date with h | h | h
    · exact Or.inl (Or.inl h)
    · rcases hx : startTimeOf a with - | x <;> rcases hy : startTimeOf b with - | y
      · exact Or.inl (Or.inr ⟨h, by rw [hx, hy]; rfl⟩)
      · exact Or.inr (Or.inr ⟨h.symm, by rw [hx, hy]; rfl⟩)
      · exact Or.inl (Or.inr ⟨h, by rw [hx, hy]; rfl⟩)
      · rcases Nat.le_total x y with hxy | hxy
        · exact Or.inl (Or.inr ⟨h, by rw [hx, hy]; simp [timeLe, hxy]⟩)
        · exact Or.inr (Or.inr ⟨h.symm, by rw [hx, hy]; simp [timeLe, hxy]⟩)
    · exact Or.inr (Or.inl h)⟩

instance : IsTrans Entry entryR :=
  ⟨fun a b c hab hbc => by
    rcases hab with h1 | ⟨h1, h1t⟩
    · rcases hbc with h2 | ⟨h2, -⟩
      · exact Or.inl (h1.trans h2)
      · exact Or.inl (h2 ▸ h1)
    · rcases hbc with h2 | ⟨h2, h2t⟩
      · exact Or.inl (h1 ▸ h2)
      · refine Or.inr ⟨h1.trans h2, ?_⟩
        rcases hx : startTimeOf a with - | x <;> rcases hy : startTimeOf b with - | y <;>
            rcases hz : startTimeOf c with - | z <;>
            rw [hx, hy] at h1t <;> rw [hy, hz] at h2t <;>
            simp [timeLe] at h1t h2t ⊢ <;> omega⟩

/-! Theorems.  Each claim of the specification audit is settled by one
theorem below; shared helper lemmas come first. -/

theorem filterMap_filter_of_none {α β : Type} (p : α → Bool) (f : α → Option β)
    (h : ∀ a, p a = false → f a = none) :
    ∀ l : List α, l.filterMap f = (l.filter p).filterMap f := by
  intro l
  induction l with
  | nil => rfl
  | cons a rest ih =>
    cases hp : p a
    · simp only [List.filterMap_cons, h a hp, List.filter_cons, hp]
      exact ih
    · simp only [List.filterMap_cons, List.filter_cons, hp, if_pos, ih]

theorem filterMap_eq_map_filter {α β : Type} (q : α → Bool) (g : α → β) (f : α → Option β)
    (h : ∀ a, f a = if q a then some (g a) else none) :
    ∀ l : List α, l.filterMap f = (l.filter q).map g := by
  intro l
  induction l with
  | nil => rfl
  | cons a rest ih =>
    cases hq : q a
    · simp only [List.filterMap_cons, h a, hq, List.filter_cons]
      simp only [ih]
      simp
    · simp only [List.filterMap_cons, h a, hq, List.filter_cons]
      simp only [ih]
      simp

/-- C2: on the three example inputs of the specification the code returns
`none` every time.  For `"10:00-11:00 AM"` the regex token is the end
time `"11:00 AM"` and both `strptime` formats reject the space before the
meridiem; for `"2 PM"` the token is `"2 PM"`, rejected for the same
reason; `"Lunch Break"` has no token.  The specification expects
10:00 (600 minutes), 14:00 (840 minutes) and `none` respectively. -/
theorem extract_start_time_spec_examples :
    extract_start_time "10:00-11:00 AM" = none ∧
    extract_start_time "2 PM" = none ∧
    extract_start_time "Lunch Break" = none :=
  ⟨rfl, rfl, rfl⟩

/-- C8: a roster file whose sheet has no "Roll No." column never
contributes, so the result over any directory equals the result over the
directory with those files removed; and a non-empty directory whose only
file lacks the column yields the empty list (no enrollment), not a
failure. -/
theorem get_student_courses_skips_missing_column :
    (∀ (dir : List RosterFile) (roll : String),
      get_student_courses dir roll =
        get_student_courses (dir.filter (fun f => f.hasRollCol)) roll) ∧
    (∀ roll, get_student_courses [⟨"CS101_A.xlsx", false, ["21BCM014"]⟩] roll = []) := by
  constructor
  · intro dir roll
    exact filterMap_filter_of_none _ _ (fun a ha => by simp [ha]) dir
  · intro roll
    rfl

/-- C9 counterexample: the roster file `"_A.xlsx"` produces the course
stem `"_A"`, whose derived subject code is empty, so the code does not
guarantee a non-empty subject code for every derived identifier. -/
theorem subjectOf_empty_counterexample :
    get_student_courses [⟨"_A.xlsx", true, ["R1"]⟩] "R1" = ["_A"] ∧
    subjectOf "_A" = "" :=
  ⟨rfl, rfl⟩

/-- C9 (amended): the derived subject code is non-empty for every course
stem that is non-empty and does not begin with an underscore. -/
theorem subjectOf_ne_empty (course : String) (h : headNotUnderscore course = true) :
    subjectOf course ≠ "" := by
  unfold headNotUnderscore at h
  unfold subjectOf
  cases hc : course.toList with
  | nil => rw [hc] at h; exact Bool.noConfusion h
  | cons c cs =>
    rw [hc] at h
    have h' : (c != '_') = true := h
    rw [List.takeWhile_cons, if_pos h']
    intro hcon
    have := congrArg String.data hcon
    simp at this

theorem subjectOf_ne_empty_witness : subjectOf "CS101_A" ≠ "" :=
  subjectOf_ne_empty "CS101_A" (by decide)

/-- C10 counterexample: `file.replace(".xlsx", "")` removes every
occurrence of `".xlsx"`, not only the final suffix, so the file
`"a.xlsxb.xlsx"` contributes `"ab"` rather than its stem `"a.xlsxb"`. -/
theorem get_student_courses_suffix_counterexample :
    get_student_courses [⟨"a.xlsxb.xlsx", true, ["R"]⟩] "R" = ["ab"] ∧
    get_student_courses [⟨"a.xlsxb.xlsx", true, ["R"]⟩] "R" ≠ ["a.xlsxb"] :=
  ⟨rfl, by decide⟩

/-- C10 (amended): only files whose name ends in `".xlsx"` are ever
considered — every other file is ignored whatever its content — and the
result is exactly one course identifier per matching file, namely the
file name with every occurrence of `".xlsx"` removed, in directory
order. -/
theorem get_student_courses_characterization :
    ∀ (dir : List RosterFile) (roll : String),
      get_student_courses dir roll =
        get_student_courses
          (dir.filter (fun f => (".xlsx".toList).isSuffixOf f.name.toList)) roll ∧
      get_student_courses dir roll =
        (dir.filter (fun f => (".xlsx".toList).isSuffixOf f.name.toList &&
            (f.hasRollCol && f.rolls.contains roll))).map
          (fun f => String.mk (stripXlsx f.name.toList)) := by
  intro dir roll
  constructor
  · exact filterMap_filter_of_none _ _
      (fun a ha => by simp only [ha]; exact if_neg (by decide)) dir
  · refine filterMap_eq_map_filter _ _ _ (fun a => ?_) dir
    cases h1 : (".xlsx".toList).isSuffixOf a.name.toList <;>
      cases h2 : a.hasRollCol && a.rolls.contains roll <;> rfl

theorem any_range_iff (n : Nat) (p : Nat → Bool) :
    ((List.range n).any p = true) ↔ ∃ i, i < n ∧ p i = true := by
  simp [List.any_eq_true, List.mem_range]

theorem isPrefixOf_drop_iff {pat s : List Char} {i : Nat} (hi : i ≤ s.length) :
    (pat.isPrefixOf (s.drop i) = true) ↔
      ∃ pre suf, s = pre ++ pat ++ suf ∧ pre.length = i := by
  rw [List.isPrefixOf_iff_prefix]
  constructor
  · rintro ⟨t, ht⟩
    have hs : s = s.take i ++ (pat ++ t) := by rw [ht, List.take_append_drop]
    exact ⟨s.take i, t, hs.trans (List.append_assoc _ _ _).symm,
      by simp [List.length_take, Nat.min_eq_left hi]⟩
  · rintro ⟨pre, suf, hs, hlen⟩
    subst hs
    refine ⟨suf, ?_⟩
    rw [← hlen, List.append_assoc, List.drop_left]

theorem tokenBoundaryLeft_concat (pre' : List Char) (d : Char) :
    TokenBoundaryLeft (pre' ++ [d]) ↔ isWordChar d = false := by
  constructor
  · rintro (habs | ⟨pre'', c', heq, hw⟩)
    · exact absurd habs (by simp)
    · obtain ⟨-, hd⟩ := List.append_inj' heq rfl
      have hd' : d = c' := by simpa using hd
      rw [hd']
      exact hw
  · intro hw
    exact Or.inr ⟨pre', d, rfl, hw⟩

theorem boundaryAt_append_iff (pre rest : List Char) (c : Char) (hc : isWordChar c = true) :
    boundaryAt (pre ++ c :: rest) pre.length = true ↔ TokenBoundaryLeft pre := by
  have hget : (pre ++ c :: rest).get? pre.length = some c := by
    rw [List.get?_append_right (le_refl _)]
    simp
  rcases List.eq_nil_or_concat pre with h | ⟨pre', d, h⟩
  · subst h
    simp [boundaryAt, wordCharAt, hget, hc, TokenBoundaryLeft]
  · rw [List.concat_eq_append] at h
    subst h
    rw [tokenBoundaryLeft_concat]
    have hlen : (pre' ++ [d]).length = pre'.length + 1 := by simp
    rw [hlen] at hget
    have hshape : (pre' ++ [d]) ++ c :: rest = pre' ++ d :: c :: rest := by simp
    have hgetd : ((pre' ++ [d]) ++ c :: rest).get? pre'.length = some d := by
      rw [hshape, List.get?_append_right (le_refl _)]
      simp
    rw [hlen]
    simp only [boundaryAt, wordCharAt, hget, hgetd, hc]
    cases hd : isWordChar d <;> simp [hd]

theorem suf_head_iff (suf : List Char) :
    (suf.get? 0 ≠ some '(') ↔ (suf = [] ∨ ∃ c suf', suf = c :: suf' ∧ c ≠ '(') := by
  cases suf with
  | nil => simp
  | cons c rest =>
    constructor
    · intro h
      exact Or.inr ⟨c, rest, rfl, fun hcc => h (by simp [List.get?, hcc])⟩
    · rintro (h | ⟨c', suf', heq, hne⟩) hcon
      · cases h
      · have hcc : c = '(' := by simpa [List.get?] using hcon
        obtain ⟨hc', -⟩ := List.cons.inj heq
        exact hne (by rw [← hc']; exact hcc)

theorem get?_append2 (pre mid suf : List Char) :
    (pre ++ mid ++ suf).get? (pre.length + mid.length) = suf.get? 0 := by
  rw [show pre.length + mid.length = (pre ++ mid).length by simp,
    List.get?_append_right (le_refl _)]
  simp

theorem headIsWordChar_elim {subj : String} (h : headIsWordChar subj = true) :
    ∃ c cs, subj.toList = c :: cs ∧ isWordChar c = true := by
  unfold headIsWordChar at h
  cases hs : subj.toList with
  | nil => rw [hs] at h; exact Bool.noConfusion h
  | cons c cs => rw [hs] at h; exact ⟨c, cs, rfl, h⟩

theorem matchesNoDiv_iff (subj cell : String) (h : headIsWordChar subj = true) :
    matchesNoDiv subj cell = true ↔ specNoDivMatchAmended subj cell := by
  obtain ⟨c, cs, hsubj, hc⟩ := headIsWordChar_elim h
  unfold matchesNoDiv specNoDivMatchAmended
  rw [any_range_iff]
  constructor
  · rintro ⟨i, hi, hmatch⟩
    unfold noDivMatchAt at hmatch
    rw [Bool.and_eq_true, Bool.and_eq_true] at hmatch
    obtain ⟨⟨hb, hp⟩, hl⟩ := hmatch
    rw [isPrefixOf_drop_iff (Nat.lt_succ_iff.mp hi)] at hp
    obtain ⟨pre, suf, hsplit, hplen⟩ := hp
    refine ⟨pre, suf, hsplit, ?_, ?_⟩
    · rw [← hplen] at hb
      rw [hsplit, show pre ++ subj.toList ++ suf = pre ++ c :: (cs ++ suf) by
        rw [hsubj]; simp] at hb
      exact (boundaryAt_append_iff pre (cs ++ suf) c hc).mp hb
    · rw [Bool.not_eq_true', beq_eq_false_iff_ne] at hl
      rw [← hplen, hsplit, get?_append2] at hl
      exact (suf_head_iff suf).mp hl
  · rintro ⟨pre, suf, hsplit, htb, hsuf⟩
    have hle : pre.length ≤ cell.toList.length := by rw [hsplit]; simp
    refine ⟨pre.length, by omega, ?_⟩
    unfold noDivMatchAt
    rw [Bool.and_eq_true, Bool.and_eq_true]
    refine ⟨⟨?_, ?_⟩, ?_⟩
    · rw [hsplit, show pre ++ subj.toList ++ suf = pre ++ c :: (cs ++ suf) by
        rw [hsubj]; simp]
      exact (boundaryAt_append_iff pre (cs ++ suf) c hc).mpr htb
    · rw [isPrefixOf_drop_iff hle]
      exact ⟨pre, suf, hsplit, rfl⟩
    · rw [Bool.not_eq_true', beq_eq_false_iff_ne, hsplit, get?_append2]
      exact (suf_head_iff suf).mpr hsuf

theorem wsDivClose_iff (div : List Char) : ∀ t : List Char,
    (wsDivClose div t = true ↔
      ∃ ws suf, t = ws ++ div ++ ')' :: suf ∧ ∀ c ∈ ws, pyIsSpace c = true) := by
  intro t
  induction t with
  | nil =>
    simp only [wsDivClose]
    constructor
    · intro h; cases h
    · rintro ⟨ws, suf, heq, -⟩
      exfalso
      have := congrArg List.length heq
      simp at this
      omega
  | cons a rest ih =>
    simp only [wsDivClose, Bool.or_eq_true, Bool.and_eq_true]
    constructor
    · rintro (hpre | ⟨hsp, hrec⟩)
      · rw [List.isPrefixOf_iff_prefix] at hpre
        obtain ⟨suf, hsuf⟩ := hpre
        refine ⟨[], suf, ?_, by simp⟩
        rw [← hsuf]
        simp
      · obtain ⟨ws, suf, heq, hws⟩ := ih.mp hrec
        refine ⟨a :: ws, suf, by simp [heq], ?_⟩
        intro x hx
        rcases List.mem_cons.mp hx with rfl | hx'
        · exact hsp
        · exact hws x hx'
    · rintro ⟨ws, suf, heq, hws⟩
      cases ws with
      | nil =>
        left
        rw [List.isPrefixOf_iff_prefix]
        refine ⟨suf, ?_⟩
        rw [heq]
        simp
      | cons w ws' =>
        right
        have hinj : a = w ∧ rest = ws' ++ div ++ ')' :: suf := by
          constructor
          · exact (List.cons.inj (by simpa using heq)).1
          · exact (List.cons.inj (by simpa using heq)).2
        refine ⟨hinj.1 ▸ hws w (List.mem_cons_self w ws'), ?_⟩
        exact ih.mpr ⟨ws', suf, hinj.2, fun x hx => hws x (List.mem_cons_of_mem w hx)⟩

theorem apoThen_cons (div : List Char) (c : Char) (rest : List Char) :
    apoThen div (c :: rest) =
      (((c = '\'' || c = '’') && wsDivClose div rest) || wsDivClose div (c :: rest)) :=
  rfl

theorem apoThen_iff (div : List Char) : ∀ t : List Char,
    (apoThen div t = true ↔
      ∃ apo ws suf, t = apo ++ ws ++ div ++ ')' :: suf ∧
        (apo = [] ∨ apo = ['\''] ∨ apo = ['’']) ∧ ∀ c ∈ ws, pyIsSpace c = true) := by
  intro t
  constructor
  · intro h
    cases t with
    | nil =>
      have hws : wsDivClose div [] = true := by simpa [apoThen] using h
      cases hws
    | cons a rest =>
      rw [apoThen_cons, Bool.or_eq_true, Bool.and_eq_true] at h
      rcases h with ⟨ha, hrec⟩ | hws
      · obtain ⟨ws, suf, heq, hw⟩ := (wsDivClose_iff div rest).mp hrec
        refine ⟨[a], ws, suf, by simp [heq], ?_, hw⟩
        have ha' : a = '\'' ∨ a = '’' := by simpa using ha
        rcases ha' with rfl | rfl
        · exact Or.inr (Or.inl rfl)
        · exact Or.inr (Or.inr rfl)
      · obtain ⟨ws, suf, heq, hw⟩ := (wsDivClose_iff div (a :: rest)).mp hws
        exact ⟨[], ws, suf, by simpa using heq, Or.inl rfl, hw⟩
  · rintro ⟨apo, ws, suf, heq, hapo, hw⟩
    rcases hapo with rfl | rfl | rfl
    · cases t with
      | nil =>
        exfalso
        have := congrArg List.length heq
        simp at this
        omega
      | cons a rest =>
        rw [apoThen_cons, Bool.or_eq_true]
        right
        exact (wsDivClose_iff div (a :: rest)).mpr ⟨ws, suf, by simpa using heq, hw⟩
    · cases t with
      | nil =>
        exfalso
        have := congrArg List.length heq
        simp at this
      | cons a rest =>
        rw [apoThen_cons, Bool.or_eq_true]
        left
        rw [Bool.and_eq_true]
        have hinj : a = '\'' ∧ rest = ws ++ div ++ ')' :: suf := by
          constructor
          · exact (List.cons.inj (by simpa using heq)).1
          · exact (List.cons.inj (by simpa using heq)).2
        refine ⟨?_, (wsDivClose_iff div rest).mpr ⟨ws, suf, hinj.2, hw⟩⟩
        rw [hinj.1]
        simp
    · cases t with
      | nil =>
        exfalso
        have := congrArg List.length heq
        simp at this
      | cons a rest =>
        rw [apoThen_cons, Bool.or_eq_true]
        left
        rw [Bool.and_eq_true]
        have hinj : a = '’' ∧ rest = ws ++ div ++ ')' :: suf := by
          constructor
          · exact (List.cons.inj (by simpa using heq)).1
          · exact (List.cons.inj (by simpa using heq)).2
        refine ⟨?_, (wsDivClose_iff div rest).mpr ⟨ws, suf, hinj.2, hw⟩⟩
        rw [hinj.1]
        simp

theorem matchesDiv_iff (subj div cell : String) (h : headIsWordChar subj = true) :
    matchesDiv subj div cell = true ↔ specDivMatch subj div cell := by
  obtain ⟨c, cs, hsubj, hc⟩ := headIsWordChar_elim h
  unfold matchesDiv specDivMatch
  rw [any_range_iff]
  constructor
  · rintro ⟨i, hi, hmatch⟩
    unfold divMatchAt at hmatch
    rw [Bool.and_eq_true, Bool.and_eq_true] at hmatch
    obtain ⟨⟨hb, hp⟩, ha⟩ := hmatch
    rw [isPrefixOf_drop_iff (Nat.lt_succ_iff.mp hi)] at hp
    obtain ⟨pre, tail, hsplit, hplen⟩ := hp
    have hdrop : cell.toList.drop (i + subj.toList.length + 1) = tail := by
      rw [hsplit, ← hplen,
        show pre.length + subj.toList.length + 1 = (pre ++ (subj.toList ++ ['('])).length by
          simp [Nat.add_assoc],
        show pre ++ (subj.toList ++ ['(']) ++ tail = (pre ++ (subj.toList ++ ['('])) ++ tail
          from rfl,
        List.drop_left]
    rw [hdrop] at ha
    obtain ⟨apo, ws, suf, htail, hapo, hws⟩ := (apoThen_iff div.toList tail).mp ha
    refine ⟨pre, apo, ws, suf, ?_, ?_, hapo, hws⟩
    · rw [hsplit, htail]
      simp [List.append_assoc]
    · rw [← hplen] at hb
      rw [hsplit, show pre ++ (subj.toList ++ ['(']) ++ tail = pre ++ c :: (cs ++ '(' :: tail) by
        rw [hsubj]; simp] at hb
      exact (boundaryAt_append_iff pre (cs ++ '(' :: tail) c hc).mp hb
  · rintro ⟨pre, apo, ws, suf, hsplit, htb, hapo, hws⟩
    have hsplit' : cell.toList =
        (pre ++ (subj.toList ++ ['('])) ++ (apo ++ ws ++ div.toList ++ ')' :: suf) := by
      rw [hsplit]
      simp [List.append_assoc]
    have hle : pre.length ≤ cell.toList.length := by rw [hsplit]; simp
    refine ⟨pre.length, by omega, ?_⟩
    unfold divMatchAt
    rw [Bool.and_eq_true, Bool.and_eq_true]
    refine ⟨⟨?_, ?_⟩, ?_⟩
    · rw [hsplit, show pre ++ subj.toList ++ '(' :: (apo ++ ws ++ div.toList ++ ')' :: suf) =
        pre ++ c :: (cs ++ '(' :: (apo ++ ws ++ div.toList ++ ')' :: suf)) by
          rw [hsubj]; simp]
      exact (boundaryAt_append_iff pre _ c hc).mpr htb
    · rw [isPrefixOf_drop_iff hle]
      exact ⟨pre, apo ++ ws ++ div.toList ++ ')' :: suf, by rw [hsplit'], rfl⟩
    · rw [hsplit',
        show pre.length + subj.toList.length + 1 = (pre ++ (subj.toList ++ ['('])).length by
          simp [Nat.add_assoc],
        List.drop_left]
      exact (apoThen_iff div.toList _).mpr ⟨apo, ws, suf, rfl, hapo, hws⟩

/-- C1 counterexample: the empty-division pattern has no trailing token
boundary, so the cell `"CS1010"` does match the identifier (CS101, ""),
contradicting the claim's token-boundary example. -/
theorem matchesNoDiv_CS1010_counterexample :
    cellMatchesId "CS101" "" "CS1010" = true := by decide

/-- C1 (amended): a cell matches an identifier with empty division code
exactly when it contains the subject code preceded by a token boundary
and not immediately followed by an opening parenthesis; no trailing token
boundary is enforced.  Hence `"CS101"` matches (CS101, ""), `"CS1010"`
also matches (CS101, ""), and `"CS101(A)"` does not match (CS101, ""). -/
theorem cellMatchesId_empty_div_characterization :
    (∀ subj cell : String, headIsWordChar subj = true →
      (cellMatchesId subj "" cell = true ↔ specNoDivMatchAmended subj cell)) ∧
    cellMatchesId "CS101" "" "CS101" = true ∧
    cellMatchesId "CS101" "" "CS1010" = true ∧
    cellMatchesId "CS101" "" "CS101(A)" = false := by
  refine ⟨?_, by decide, by decide, by decide⟩
  intro subj cell h
  unfold cellMatchesId
  rw [if_pos rfl]
  exact matchesNoDiv_iff subj cell h

theorem cellMatchesId_empty_div_characterization_witness :
    specNoDivMatchAmended "CS101" "CS1010" :=
  (cellMatchesId_empty_div_characterization.1 "CS101" "CS1010" (by decide)).mp (by decide)

/-- C3: a cell matches an identifier with non-empty division code exactly
when it contains the subject code on a (left) token boundary, immediately
followed by an opening parenthesis, an optional straight or typographic
apostrophe, optional whitespace, the division code, and a closing
parenthesis; in particular `"CS101(A)"` matches (CS101, A) but not
(CS101, B). -/
theorem cellMatchesId_div_characterization :
    (∀ subj div cell : String, div ≠ "" → headIsWordChar subj = true →
      (cellMatchesId subj div cell = true ↔ specDivMatch subj div cell)) ∧
    cellMatchesId "CS101" "A" "CS101(A)" = true ∧
    cellMatchesId "CS101" "B" "CS101(A)" = false := by
  refine ⟨?_, by decide, by decide⟩
  intro subj div cell hdiv h
  unfold cellMatchesId
  rw [if_neg hdiv]
  exact matchesDiv_iff subj div cell h

theorem cellMatchesId_div_characterization_witness :
    specDivMatch "CS101" "A" "CS101(A)" :=
  (cellMatchesId_div_characterization.1 "CS101" "A" "CS101(A)" (by decide) (by decide)).mp
    (by decide)

theorem mem_dedupGo {e : Entry} : ∀ {l : List Entry} {seen : List DKey},
    e ∈ dedupGo seen l → e ∈ l ∧ dedupKey e ∉ seen := by
  intro l
  induction l with
  | nil => intro seen h; cases h
  | cons a rest ih =>
    intro seen h
    unfold dedupGo at h
    by_cases hk : dedupKey a ∈ seen
    · rw [if_pos hk] at h
      obtain ⟨h1, h2⟩ := ih h
      exact ⟨List.mem_cons_of_mem a h1, h2⟩
    · rw [if_neg hk] at h
      rcases List.mem_cons.mp h with rfl | h'
      · exact ⟨List.mem_cons_self _ _, hk⟩
      · obtain ⟨h1, h2⟩ := ih h'
        exact ⟨List.mem_cons_of_mem a h1, fun hc => h2 (List.mem_cons_of_mem _ hc)⟩

theorem dedupGo_congr : ∀ (l : List Entry) {s1 s2 : List DKey},
    (∀ k, k ∈ s1 ↔ k ∈ s2) → dedupGo s1 l = dedupGo s2 l := by
  intro l
  induction l with
  | nil => intro s1 s2 _; rfl
  | cons a rest ih =>
    intro s1 s2 h
    unfold dedupGo
    by_cases hk : dedupKey a ∈ s1
    · rw [if_pos hk, if_pos ((h _).mp hk)]
      exact ih h
    · rw [if_neg hk, if_neg (fun hc => hk ((h _).mpr hc))]
      exact congrArg (a :: ·) (ih (fun k => by simp [List.mem_cons, h k]))

theorem dedupGo_cons (seen : List DKey) (e : Entry) (rest : List Entry) :
    dedupGo seen (e :: rest) =
      if dedupKey e ∈ seen then dedupGo seen rest
      else e :: dedupGo (dedupKey e :: seen) rest :=
  rfl

theorem dedupGo_append : ∀ (xs ys : List Entry) (seen : List DKey),
    dedupGo seen (xs ++ ys) =
      dedupGo seen xs ++ dedupGo (xs.map dedupKey ++ seen) ys := by
  intro xs
  induction xs with
  | nil => intro ys seen; rfl
  | cons x xs' ih =>
    intro ys seen
    show dedupGo seen (x :: (xs' ++ ys)) = dedupGo seen (x :: xs') ++ _
    rw [dedupGo_cons, dedupGo_cons]
    by_cases hk : dedupKey x ∈ seen
    · rw [if_pos hk, if_pos hk, ih ys seen]
      congr 1
      refine dedupGo_congr ys (fun k => ?_)
      simp only [List.map_cons, List.cons_append, List.mem_cons, List.mem_append]
      constructor
      · tauto
      · rintro (rfl | h | h)
        · exact Or.inr hk
        · exact Or.inl h
        · exact Or.inr h
    · rw [if_neg hk, if_neg hk, ih ys (dedupKey x :: seen)]
      rw [List.cons_append]
      congr 1
      congr 1
      refine dedupGo_congr ys (fun k => ?_)
      simp only [List.map_cons, List.cons_append, List.mem_cons, List.mem_append]
      tauto

theorem dedupGo_pairwise : ∀ (l : List Entry) (seen : List DKey),
    (dedupGo seen l).Pairwise (fun a b => dedupKey a ≠ dedupKey b) := by
  intro l
  induction l with
  | nil => intro seen; exact List.Pairwise.nil
  | cons a rest ih =>
    intro seen
    unfold dedupGo
    by_cases hk : dedupKey a ∈ seen
    · rw [if_pos hk]; exact ih seen
    · rw [if_neg hk]
      refine List.Pairwise.cons ?_ (ih _)
      intro b hb hcon
      exact (mem_dedupGo hb).2 (by rw [← hcon]; exact List.mem_cons_self _ _)

theorem dedupGo_exists_key {x : Entry} : ∀ {l : List Entry} {seen : List DKey},
    x ∈ l → dedupKey x ∉ seen → ∃ e ∈ dedupGo seen l, dedupKey e = dedupKey x := by
  intro l
  induction l with
  | nil => intro seen h _; cases h
  | cons a rest ih =>
    intro seen hx hk
    unfold dedupGo
    by_cases hka : dedupKey a ∈ seen
    · rw [if_pos hka]
      rcases List.mem_cons.mp hx with rfl | hx'
      · exact absurd hka hk
      · exact ih hx' hk
    · rw [if_neg hka]
      by_cases heq : dedupKey x = dedupKey a
      · exact ⟨a, List.mem_cons_self _ _, heq.symm⟩
      · rcases List.mem_cons.mp hx with rfl | hx'
        · exact absurd rfl heq
        · obtain ⟨e, he, hke⟩ := ih hx' (fun hc => by
            rcases List.mem_cons.mp hc with h1 | h1
            · exact heq h1
            · exact hk h1)
          exact ⟨e, List.mem_cons_of_mem _ he, hke⟩

theorem dedupGo_eq_self : ∀ {l : List Entry} {seen : List DKey},
    l.Pairwise (fun a b => dedupKey a ≠ dedupKey b) → (∀ x ∈ l, dedupKey x ∉ seen) →
    dedupGo seen l = l := by
  intro l
  induction l with
  | nil => intro seen _ _; rfl
  | cons a rest ih =>
    intro seen hp hs
    unfold dedupGo
    rw [if_neg (hs a (List.mem_cons_self _ _))]
    congr 1
    refine ih hp.of_cons (fun x hx hc => ?_)
    rcases List.mem_cons.mp hc with h1 | h1
    · exact List.rel_of_pairwise_cons hp hx h1.symm
    · exact hs x (List.mem_cons_of_mem _ hx) h1

theorem dedupGo_nil_of_seen : ∀ {l : List Entry} {seen : List DKey},
    (∀ x ∈ l, dedupKey x ∈ seen) → dedupGo seen l = [] := by
  intro l
  induction l with
  | nil => intro seen _; rfl
  | cons a rest ih =>
    intro seen h
    unfold dedupGo
    rw [if_pos (h a (List.mem_cons_self _ _))]
    exact ih (fun x hx => h x (List.mem_cons_of_mem _ hx))

theorem mergeRow_key (master : List MasterRow) (r : RawMatch) :
    ∀ e ∈ mergeRow master r,
      dedupKey e = (r.date, r.day, r.session, r.subject, r.div) := by
  intro e he
  unfold mergeRow at he
  rcases hf : master.filter (fun row => row.abbre == r.subject) with - | ⟨m0, ms⟩
  · rw [hf] at he
    rw [List.mem_singleton.mp he]
    rfl
  · rw [hf] at he
    obtain ⟨mrow, -, hrow⟩ := List.mem_map.mp he
    rw [← hrow]
    rfl

theorem find?_eq_head?_filter {α : Type} (p : α → Bool) : ∀ l : List α,
    l.find? p = (l.filter p).head? := by
  intro l
  induction l with
  | nil => rfl
  | cons a rest ih =>
    by_cases h : p a
    · rw [List.find?_cons_of_pos _ h, List.filter_cons_of_pos h]
      rfl
    · rw [List.find?_cons_of_neg _ (by simpa using h), List.filter_cons_of_neg (by simpa using h)]
      exact ih

theorem mergeRow_head? (master : List MasterRow) (r : RawMatch) :
    (mergeRow master r).head? =
      some (mkEntry r (master.find? (fun row => row.abbre == r.subject))) := by
  unfold mergeRow
  rw [find?_eq_head?_filter]
  rcases hf : master.filter (fun row => row.abbre == r.subject) with - | ⟨m0, ms⟩ <;>
    rw [hf] <;> rfl

theorem dedup_mergeLeft_spec (master : List MasterRow) :
    ∀ (m : List RawMatch) (seen : List DKey), ∀ e ∈ dedupGo seen (mergeLeft m master),
      e.faculty = (master.find? (fun row => row.abbre == e.subject)).map MasterRow.faculty ∧
      e.venue = (master.find? (fun row => row.abbre == e.subject)).map MasterRow.venue := by
  intro m
  induction m with
  | nil => intro seen e he; cases he
  | cons r rs ih =>
    intro seen e he
    rw [show mergeLeft (r :: rs) master = mergeRow master r ++ mergeLeft rs master by
      unfold mergeLeft; rw [List.flatMap_cons], dedupGo_append] at he
    rcases List.mem_append.mp he with hleft | hright
    · have hkeys := mergeRow_key master r
      have hhead := mergeRow_head? master r
      rcases hmr : mergeRow master r with - | ⟨e0, es⟩
      · rw [hmr] at hleft; cases hleft
      · rw [hmr] at hleft hhead hkeys
        have he0 : e0 = mkEntry r (master.find? (fun row => row.abbre == r.subject)) :=
          Option.some.inj hhead
        unfold dedupGo at hleft
        by_cases hk : dedupKey e0 ∈ seen
        · rw [if_pos hk, dedupGo_nil_of_seen (fun x hx => by
            rw [hkeys x (List.mem_cons_of_mem _ hx), ← hkeys e0 (List.mem_cons_self _ _)]
            exact hk)] at hleft
          cases hleft
        · rw [if_neg hk, dedupGo_nil_of_seen (fun x hx => by
            rw [hkeys x (List.mem_cons_of_mem _ hx), ← hkeys e0 (List.mem_cons_self _ _)]
            exact List.mem_cons_self _ _)] at hleft
          rcases List.mem_cons.mp hleft with rfl | hcon
          · rw [he0]
            exact ⟨rfl, rfl⟩
          · cases hcon
    · exact ih _ e hright

theorem mem_assemble_iff {e : Entry} {m : List RawMatch} {master : List MasterRow} :
    e ∈ assemble m master ↔ e ∈ dropDuplicates (mergeLeft m master) :=
  List.mem_insertionSort entryR

theorem assemble_pairwise_key (m : List RawMatch) (master : List MasterRow) :
    (assemble m master).Pairwise (fun a b => dedupKey a ≠ dedupKey b) := by
  have hperm : List.Perm (assemble m master) (dropDuplicates (mergeLeft m master)) :=
    List.perm_insertionSort entryR _
  exact (hperm.pairwise_iff (fun h => Ne.symm h)).mpr
    (dedupGo_pairwise (mergeLeft m master) [])

/-- C5: no two entries of the assembled output share the deduplication
key (Date, Day, Session, Subject, Div) — the kept entry being the first
occurrence — and re-running the deduplicate-and-sort stages on the
assembler's own output returns it unchanged: repeat runs cause no
growth. -/
theorem assemble_unique_and_idempotent :
    ∀ (m : List RawMatch) (master : List MasterRow),
      (assemble m master).Pairwise (fun a b => dedupKey a ≠ dedupKey b) ∧
      sortSchedule (dropDuplicates (assemble m master)) = assemble m master := by
  intro m master
  refine ⟨assemble_pairwise_key m master, ?_⟩
  rw [show dropDuplicates (assemble m master) = assemble m master from
    dedupGo_eq_self (assemble_pairwise_key m master) (fun x _ hc => List.not_mem_nil _ hc)]
  exact (List.sorted_insertionSort entryR _).insertionSort_eq

/-- C6: every entry of the assembled output whose subject code has at
least one matching row in the master table carries the faculty and venue
of the first matching master row, and the output has exactly one entry
per deduplication key. -/
theorem assemble_first_master_match_wins :
    ∀ (m : List RawMatch) (master : List MasterRow),
      (∀ e ∈ assemble m master, ∀ mrow,
        master.find? (fun row => row.abbre == e.subject) = some mrow →
        e.faculty = some mrow.faculty ∧ e.venue = some mrow.venue) ∧
      (assemble m master).Pairwise (fun a b => dedupKey a ≠ dedupKey b) := by
  intro m master
  refine ⟨?_, assemble_pairwise_key m master⟩
  intro e he mrow hfind
  obtain ⟨hf, hv⟩ := dedup_mergeLeft_spec master m [] e (mem_assemble_iff.mp he)
  rw [hfind] at hf hv
  exact ⟨hf, hv⟩

theorem assemble_first_master_match_wins_witness :
    (⟨1, "Mon", "S", "CS1", "A", some "F1", some "V1"⟩ : Entry).faculty = some "F1" ∧
    (⟨1, "Mon", "S", "CS1", "A", some "F1", some "V1"⟩ : Entry).venue = some "V1" :=
  (assemble_first_master_match_wins
      [⟨1, "Mon", "S", "CS1", "A", "c"⟩] [⟨"CS1", "F1", "V1"⟩, ⟨"CS1", "F2", "V2"⟩]).1
    ⟨1, "Mon", "S", "CS1", "A", some "F1", some "V1"⟩ (by decide)
    ⟨"CS1", "F1", "V1"⟩ (by decide)

/-- C7: a raw match whose subject code matches no abbreviation in the
master table still yields an assembled entry with its key fields and with
absent faculty and venue; nothing is dropped and no failure occurs. -/
theorem assemble_unmatched_subject_kept :
    ∀ (m : List RawMatch) (master : List MasterRow) (r : RawMatch),
      r ∈ m → (∀ row ∈ master, row.abbre ≠ r.subject) →
      ∃ e ∈ assemble m master,
        dedupKey e = (r.date, r.day, r.session, r.subject, r.div) ∧
        e.faculty = none ∧ e.venue = none := by
  intro m master r hr hno
  have hfilter : master.filter (fun row => row.abbre == r.subject) = [] := by
    rw [List.filter_eq_nil]
    intro row hrow
    simpa using hno row hrow
  have hmem : mkEntry r none ∈ mergeLeft m master := by
    unfold mergeLeft
    rw [List.mem_flatMap]
    refine ⟨r, hr, ?_⟩
    unfold mergeRow
    rw [hfilter]
    exact List.mem_singleton_self _
  obtain ⟨e, he, hke⟩ := dedupGo_exists_key hmem (List.not_mem_nil _)
  have hfind : master.find? (fun row => row.abbre == r.subject) = none := by
    rw [find?_eq_head?_filter, hfilter]
    rfl
  have hsubj : e.subject = r.subject := by
    have := congrArg (fun k : DKey => k.2.2.2.1) hke
    simpa [dedupKey, mkEntry] using this
  obtain ⟨hf, hv⟩ := dedup_mergeLeft_spec master m [] e he
  rw [hsubj, hfind] at hf hv
  exact ⟨e, mem_assemble_iff.mpr he, by rw [hke]; rfl, hf, hv⟩

theorem assemble_unmatched_subject_kept_witness :
    ∃ e ∈ assemble [⟨1, "Mon", "S", "CS1", "A", "c"⟩] [],
      dedupKey e = (1, "Mon", "S", "CS1", "A") ∧ e.faculty = none ∧ e.venue = none :=
  assemble_unmatched_subject_kept [⟨1, "Mon", "S", "CS1", "A", "c"⟩] []
    ⟨1, "Mon", "S", "CS1", "A", "c"⟩ (by decide) (by simp)

theorem timeLe_refl (x : Option Nat) : timeLe x x = true := by
  cases x with
  | none => rfl
  | some v => simp [timeLe]

theorem entryR_of_sortKey_eq {a b : Entry} (h : sortKey a = sortKey b) : entryR a b := by
  unfold sortKey at h
  obtain ⟨h1, h2⟩ := Prod.mk.inj h
  exact Or.inr ⟨h1, by rw [h2]; exact timeLe_refl _⟩

theorem sortKey_ne_of_not_entryR {a b : Entry} (h : ¬ entryR a b) : sortKey a ≠ sortKey b :=
  fun hk => h (entryR_of_sortKey_eq hk)

theorem filter_orderedInsert (k : Nat × Option Nat) (a : Entry) : ∀ l : List Entry,
    (List.orderedInsert entryR a l).filter (keyEq k) =
      if sortKey a = k then a :: l.filter (keyEq k) else l.filter (keyEq k) := by
  intro l
  induction l with
  | nil =>
    rw [List.orderedInsert]
    by_cases h : sortKey a = k <;> simp [h, keyEq, List.filter]
  | cons b bs ih =>
    rw [List.orderedInsert]
    by_cases hr : entryR a b
    · rw [if_pos hr]
      by_cases hk : sortKey a = k <;> simp [List.filter_cons, keyEq, hk]
    · rw [if_neg hr]
      have hab : sortKey a ≠ sortKey b := sortKey_ne_of_not_entryR hr
      simp only [List.filter_cons, keyEq]
      rw [ih]
      by_cases hbk : sortKey b = k
      · have hak : sortKey a ≠ k := fun hc => hab (hc.trans hbk.symm)
        simp [hbk, hak]
      · by_cases hak : sortKey a = k <;> simp [hbk, hak]

theorem filter_insertionSort (k : Nat × Option Nat) : ∀ l : List Entry,
    (List.insertionSort entryR l).filter (keyEq k) = l.filter (keyEq k) := by
  intro l
  induction l with
  | nil => rfl
  | cons a rest ih =>
    rw [List.insertionSort, filter_orderedInsert, ih]
    by_cases hk : sortKey a = k <;> simp [List.filter_cons, keyEq, hk]

/-- C4: the assembled schedule is sorted by date ascending then extracted
start time ascending (missing times last); the sort is stable — for every
sort key, the entries with that exact (date, start time) appear in the
same order as in the deduplicated merge output, which lists them in input
order; and two entries on the same date never appear with a 10:30
(630-minute) start time before a 09:00 (540-minute) one. -/
theorem assemble_sorted_stable :
    ∀ (m : List RawMatch) (master : List MasterRow),
      List.Sorted entryR (assemble m master) ∧
      (∀ k : Nat × Option Nat,
        (assemble m master).filter (keyEq k) =
          (dropDuplicates (mergeLeft m master)).filter (keyEq k)) ∧
      (∀ (i j : Nat) (a b : Entry), i < j →
        (assemble m master).get? i = some a → (assemble m master).get? j = some b →
        a.date = b.date → ¬(startTimeOf a = some 630 ∧ startTimeOf b = some 540)) := by
  intro m master
  refine ⟨List.sorted_insertionSort entryR _, fun k => filter_insertionSort k _, ?_⟩
  rintro i j a b hij hga hgb hdate ⟨h630, h540⟩
  have hsorted : List.Sorted entryR (assemble m master) :=
    List.sorted_insertionSort entryR _
  obtain ⟨hi, hgai⟩ := List.get?_eq_some.mp hga
  obtain ⟨hj, hgbj⟩ := List.get?_eq_some.mp hgb
  have hrel : entryR a b := by
    have := List.pairwise_iff_get.mp hsorted ⟨i, hi⟩ ⟨j, hj⟩ (by simpa using hij)
    rwa [hgai, hgbj] at this
  rcases hrel with h | ⟨-, ht⟩
  · omega
  · rw [h630, h540] at ht
    simp [timeLe] at ht

theorem assemble_sorted_stable_witness :
    ¬(startTimeOf (⟨1, "Mon", "9:00AM-10:00AM", "CS1", "A", none, none⟩ : Entry) = some 630 ∧
      startTimeOf (⟨1, "Mon", "10:30AM-11:30AM", "MA1", "A", none, none⟩ : Entry) = some 540) :=
  (assemble_sorted_stable
      [⟨1, "Mon", "10:30AM-11:30AM", "MA1", "A", "c"⟩,
       ⟨1, "Mon", "9:00AM-10:00AM", "CS1", "A", "c"⟩] []).2.2 0 1
    ⟨1, "Mon", "9:00AM-10:00AM", "CS1", "A", none, none⟩
    ⟨1, "Mon", "10:30AM-11:30AM", "MA1", "A", none, none⟩
    (by decide) (by decide) (by decide) rfl

end Timetable
